import Mathlib

/-!
Verification development for the arch-gen core (workspace model construction
and tree/graph rendering).  The definitions below are a shallow embedding of
the TypeScript source in `src/index.ts` of the repository: each definition is
translated from the corresponding source function, with JavaScript runtime
behaviour (string `split`, `Array.prototype.find`/`push`, `Set`/`Map`
insertion order, `Object.entries` key ordering, `String.prototype.trim`)
made explicit.
-/

/-- JS `s.split("/")` on character lists: always returns a nonempty list of
segments; splitting the empty list yields `[[]]`, matching JS
`"".split("/") === [""]`. -/
def splitChars : List Char → List (List Char)
  | [] => [[]]
  | c :: cs =>
    if c = '/' then [] :: splitChars cs
    else
      match splitChars cs with
      | [] => [[c]]
      | r :: rs => (c :: r) :: rs

/-- JS `path.split("/")` (single-character separator, no limit). -/
def splitPath (s : String) : List String :=
  (splitChars s.data).map String.mk

/-- JS `path.split("/")[0]`: the first path segment (`""` for the empty path). -/
def firstSeg (s : String) : String :=
  (splitPath s).headD ""

/-- The canonical project record produced by the normalizer
(`getPnpmWorkspaceProjects`): name, namespace prefix (source field
`namespacePrefix`: the part of the name before the first `/`), path relative
to the repository root, dependency and devDependency key names, and optional
description. -/
structure Project where
  name : String
  namespacePre : String
  path : String
  dependencies : List String
  devDependencies : List String
  description : Option String
deriving DecidableEq, Repr

/-!
## Path tree (`createNodeTree`)

The source `Node` type is
`{ inner: Node[] | undefined; name: string; projectName?: string; root: boolean }`.
We represent a `Node[]` forest as a single inductive with the node fields
inlined into the `cons` constructor.  `inner: undefined` is represented by the
empty forest: `createNodeTree` initializes `inner` to `[]` on every node it
creates (so `undefined` never occurs in a built tree), and every consumer
(`generateFolderTree` checks `node.inner && node.inner.length > 0`, the
builder checks `if (!existingNode.inner) existingNode.inner = []`) treats
`undefined` exactly like the empty array.
-/
inductive Forest : Type where
  | nil : Forest
  | cons (name : String) (inner : Forest) (projectName : Option String)
      (root : Bool) (rest : Forest) : Forest
deriving DecidableEq, Repr

/-- A single node viewed as a record (the head of a `cons`). -/
structure NodeV where
  name : String
  inner : Forest
  projectName : Option String
  root : Bool
deriving DecidableEq, Repr

def Forest.isEmpty : Forest → Bool
  | .nil => true
  | .cons _ _ _ _ _ => false

/-- The one-node forest holding `n`. -/
def singleNode (n : NodeV) : Forest :=
  .cons n.name n.inner n.projectName n.root .nil

/-- JS `current.find((c) => c.name === part)`. -/
def findNode (s : String) : Forest → Option NodeV
  | .nil => none
  | .cons nm i pn rt rest =>
    if nm = s then some ⟨nm, i, pn, rt⟩ else findNode s rest

def containsName (s : String) : Forest → Bool
  | .nil => false
  | .cons nm _ _ _ rest => if nm = s then true else containsName s rest

/-- Replace the `inner` forest of the first node named `s` by `f` applied to
it (the source mutates `existingNode.inner` in place; name, `projectName` and
`root` of the node are untouched). -/
def modifyFirst (s : String) (f : Forest → Forest) : Forest → Forest
  | .nil => .nil
  | .cons nm i pn rt rest =>
    if nm = s then .cons nm (f i) pn rt rest
    else .cons nm i pn rt (modifyFirst s f rest)

/-- JS `current.push(newNode)`: append a node at the end of a sibling list. -/
def pushNode (f : Forest) (n : NodeV) : Forest :=
  match f with
  | .nil => .cons n.name n.inner n.projectName n.root .nil
  | .cons nm i pn rt rest => .cons nm i pn rt (pushNode rest n)

/-- Once one segment of a project path is missing from the sibling list, the
source loop creates a fresh chain of nodes for all remaining segments: each
created node gets `inner = []` and `root = (project.path === "")`, and the
last created node (the loop variable `leaf`) receives
`projectName = project.name`. -/
def freshChain (isRoot : Bool) (pn : String) (s : String) : List String → NodeV
  | [] => ⟨s, .nil, some pn, isRoot⟩
  | t :: rest =>
    let child := freshChain isRoot pn t rest
    ⟨s, .cons child.name child.inner child.projectName child.root .nil, none, isRoot⟩

/-- One project insertion: the per-segment loop of `createNodeTree`.  When the
segment exists the walk descends into its `inner` (`leaf` unchanged); if it is
the last segment nothing is created, so `leaf` stays `null` and no
`projectName` is written.  When the segment is missing, the whole remaining
path is created as a fresh chain appended after the existing siblings. -/
def insertSegs (isRoot : Bool) (pn : String) : List String → Forest → Forest
  | [], ns => ns
  | s :: rest, ns =>
    if containsName s ns then
      if rest.isEmpty then ns
      else modifyFirst s (insertSegs isRoot pn rest) ns
    else pushNode ns (freshChain isRoot pn s rest)

/-- One iteration of the outer loop of `createNodeTree`: for the first
project `current` starts at the top-level `tree`; for every later project the
source sets `current = tree[0].inner ?? []`, i.e. insertion happens inside
the first top-level node. -/
def treeStep (tree : Forest) (p : Project) : Forest :=
  match tree with
  | .nil => insertSegs (p.path = "") p.name (splitPath p.path) .nil
  | .cons nm i pn rt rest =>
    .cons nm (insertSegs (p.path = "") p.name (splitPath p.path) i) pn rt rest

/-- `createNodeTree` from the source: folds the projects into a forest. -/
def createNodeTree (projects : List Project) : Forest :=
  projects.foldl treeStep .nil

/-- Traversal used to state the spec invariant: starting from a sibling list,
match the first segment among the nodes of the list (first match, like JS
`find`) and descend through `inner` with the remaining segments. -/
def walk : List String → Forest → Option NodeV
  | [], _ => none
  | [s], ns => findNode s ns
  | s :: rest, ns =>
    match findNode s ns with
    | none => none
    | some n => walk rest n.inner

/-- The `projectName` of the node reached by `walk`, if any. -/
def walkPN (ns : Forest) (segs : List String) : Option String :=
  (walk segs ns).bind NodeV.projectName

/-!
## Tree rendering (`generateFolderTree`)
-/

/-- The recursive `renderTree` helper of `generateFolderTree`.  A node that is
the last of its sibling list gets the corner connector, others the branch
connector; a `root` node is printed as its bare `projectName` (placeholder
`"(root)"`) with no connector, and contributes no extra child indentation. -/
def renderForest : Forest → String → String
  | .nil, _ => ""
  | .cons nm inner pn rt rest, pre =>
    let isLast := rest.isEmpty
    let connector := if isLast then "└── " else "├── "
    let line :=
      if rt then pre ++ (pn.getD "(root)") ++ "\n"
      else pre ++ connector ++ nm ++ "\n"
    let childPre := if isLast then (if rt then "" else "    ") else "│   "
    line ++ (if inner.isEmpty then "" else renderForest inner (pre ++ childPre))
      ++ renderForest rest pre

/-- `generateFolderTree`: the rendered forest wrapped in a fenced code block. -/
def generateFolderTree (tree : Forest) : String :=
  "```\n" ++ renderForest tree "" ++ "```"

/-!
## Identifier sanitization and dependency graph (`generateDependencyGraph`)
-/

/-- One character of the JS global replace in `sanitizeMermaid`: the
character class consisting of `@`, `/` and `-` is replaced by `_`. -/
def sanChar (c : Char) : Char :=
  if c = '@' ∨ c = '/' ∨ c = '-' then '_' else c

/-- `sanitizeMermaid`: replace every `@`, `/` and `-` by `_`. -/
def sanitizeMermaid (s : String) : String :=
  String.mk (s.data.map sanChar)

/-- Append `p` to the member list of subgraph `key`, creating the entry at
the end when absent (JS `subgraphs[subgraph].push(project)` after
`if (!subgraphs[subgraph]) subgraphs[subgraph] = []`). -/
def insertGroup (key : String) (p : Project) :
    List (String × List Project) → List (String × List Project)
  | [] => [(key, [p])]
  | (k, ps) :: rest =>
    if k = key then (k, ps ++ [p]) :: rest else (k, ps) :: insertGroup key p rest

/-- One iteration of the grouping loop: projects are grouped by first path
segment, the root project (`subgraph === ""`) is skipped. -/
def groupStep (gs : List (String × List Project)) (p : Project) :
    List (String × List Project) :=
  if firstSeg p.path = "" then gs else insertGroup (firstSeg p.path) p gs

/-- Grouping of projects by first path segment, in key-insertion order. -/
def subgraphsOf (projects : List Project) : List (String × List Project) :=
  projects.foldl groupStep []

/-- Numeric value of a list of decimal digit characters. -/
def digitsVal (l : List Char) : Nat :=
  l.foldl (fun a c => a * 10 + (c.toNat - 48)) 0

/-- Whether a string is a canonical array index in the sense of the JS object
key ordering rules: a decimal numeral with no leading zero (except `"0"`)
whose value is below `2^32 - 1`. -/
def isCanonicalIndex (s : String) : Bool :=
  match s.data with
  | [] => false
  | c :: cs =>
    (c :: cs).all Char.isDigit && (decide (c ≠ '0') || cs.isEmpty)
      && decide (digitsVal (c :: cs) < 4294967295)

/-- Insert one entry into a list sorted by ascending numeric key value. -/
def insertSorted (g : String × List Project) :
    List (String × List Project) → List (String × List Project)
  | [] => [g]
  | h :: t =>
    if digitsVal g.1.data < digitsVal h.1.data then g :: h :: t
    else h :: insertSorted g t

def sortNumeric (gs : List (String × List Project)) :
    List (String × List Project) :=
  gs.foldr insertSorted []

/-- JS `Object.entries` ordering: canonical-array-index keys first in
ascending numeric order, then the remaining keys in insertion order. -/
def entriesOf (gs : List (String × List Project)) :
    List (String × List Project) :=
  sortNumeric (gs.filter (fun g => isCanonicalIndex g.1))
    ++ gs.filter (fun g => !isCanonicalIndex g.1)

/-- One node declaration appended to the accumulator: the sanitized name as
machine identifier, the raw name as label. -/
def nodeLine (a : String) (p : Project) : String :=
  a ++ "     " ++ sanitizeMermaid p.name ++ "[\"" ++ p.name ++ "\"]\n"

/-- One `subgraph …` / node declarations / `end` block appended to the
accumulator. -/
def subgraphBlock (acc : String) (g : String × List Project) : String :=
  acc ++ "  subgraph " ++ g.1 ++ "\n" ++ g.2.foldl nodeLine "" ++ "  end\n"

/-- The subgraph blocks of the graph: one block per subgraph, one node
declaration per member. -/
def nodeLines (projects : List Project) : String :=
  (entriesOf (subgraphsOf projects)).foldl subgraphBlock ""

/-- Resolution of one dependency name: exact-name lookup in the full project
list; an unresolved (external) name yields `""`, a resolved one yields the
first path segment of the target project (`""` again for the root project). -/
def resolveDepSubgraph (projects : List Project) (dep : String) : String :=
  match projects.find? (fun p => p.name = dep) with
  | none => ""
  | some dp => firstSeg dp.path

/-- JS `Set.prototype.add`: append when not already present (insertion
order preserved). -/
def setInsert (s : List String) (x : String) : List String :=
  if x ∈ s then s else s ++ [x]

/-- JS `Map.prototype.get` (by string key). -/
def lookupM (m : List (String × List String)) (k : String) : Option (List String) :=
  match m with
  | [] => none
  | (k2, v) :: rest => if k2 = k then some v else lookupM rest k

/-- JS `Map.prototype.set`: overwrite in place when the key exists (keeping
its position), append otherwise. -/
def mapSet (m : List (String × List String)) (k : String) (v : List String) :
    List (String × List String) :=
  match m with
  | [] => [(k, v)]
  | (k2, v2) :: rest =>
    if k2 = k then (k2, v) :: rest else (k2, v2) :: mapSet rest k v

/-- One iteration of the `subgraphDependencies` loop, parameterized by the
dependency-resolution function (instantiated with
`resolveDepSubgraph projects`): a root-path project is skipped; otherwise
each of its dependencies and devDependencies (in order) is resolved to a
target subgraph key and added to the set of the project's own subgraph. -/
def depStep (res : String → String) (m : List (String × List String))
    (p : Project) : List (String × List String) :=
  if p.path = "" then m
  else
    let sg := firstSeg p.path
    let cur := (lookupM m sg).getD []
    let targets := (p.dependencies ++ p.devDependencies).map res
    mapSet m sg (targets.foldl setInsert cur)

/-- The `subgraphDependencies` map. -/
def mapOf (projects : List Project) : List (String × List String) :=
  projects.foldl (depStep (resolveDepSubgraph projects)) []

/-- The target list of one subgraph's edge statement: its accumulated set,
with the empty key (external or root targets) and the subgraph itself
filtered out (`filter((x) => x && x !== subgraph)`). -/
def edgeTargets (projects : List Project) (sg : String) : List String :=
  ((lookupM (mapOf projects) sg).getD []).filter
    (fun x => decide (x ≠ "") && decide (x ≠ sg))

/-- JS `join(" & ")`. -/
def joinAmp : List String → String
  | [] => ""
  | [x] => x
  | x :: y :: rest => x ++ " & " ++ joinAmp (y :: rest)

/-- JS `String.prototype.trim` (whitespace stripped from both ends). -/
def jsTrim (s : String) : String :=
  String.mk (((s.data.dropWhile Char.isWhitespace).reverse.dropWhile
    Char.isWhitespace).reverse)

/-- The edge statements: iterate the `subgraphDependencies` map in insertion
order; a subgraph with a nonempty filtered target list contributes one
`src --> t1 & t2 & …` line. -/
def edgeLines (projects : List Project) : String :=
  (mapOf projects).foldl
    (fun acc g =>
      let deps := jsTrim (joinAmp (edgeTargets projects g.1))
      if deps = "" then acc
      else acc ++ "  " ++ g.1 ++ " --> " ++ deps ++ "\n")
    ""

/-- `generateDependencyGraph`: header, subgraph blocks, edge statements,
wrapped in a mermaid code fence. -/
def generateDependencyGraph (projects : List Project) : String :=
  "```mermaid\n" ++ "graph TD\n" ++ nodeLines projects ++ edgeLines projects
    ++ "```"

/-!
## Substring occurrence (used to state non-occurrence of external names)
-/

def leadsWith : List Char → List Char → Bool
  | [], _ => true
  | _ :: _, [] => false
  | a :: as, b :: bs => a = b && leadsWith as bs

def containsSub (pat : List Char) : List Char → Bool
  | [] => leadsWith pat []
  | c :: cs => leadsWith pat (c :: cs) || containsSub pat cs

/-- Whether `pat` occurs as a contiguous substring of `s`. -/
def containsSubstr (s pat : String) : Bool :=
  containsSub pat.data s.data

/-!
## Project record normalizer (`getPnpmWorkspaceProjects`)

The source function shells out to `pnpm ls` and reads `package.json` files;
we embed its pure validation and normalization logic, passing the parsed
`pnpm ls` output, a reader for manifests (`none` models an unreadable or
shape-invalid `package.json`, both of which throw in the source), and the
`path.relative(rootPath, ·)` function as inputs.  The `try`/`catch` wrapper
of the source catches every thrown error and returns `[]`.
-/

/-- One record of the parsed `pnpm ls -r --json` output (the fields the
workspace schema requires: a nonempty `name` and a nonempty `path`). -/
structure RawWorkspacePkg where
  name : String
  path : String
deriving DecidableEq, Repr

/-- The fields of a validated `package.json` used by the normalizer. -/
structure Manifest where
  name : String
  description : Option String
  dependencies : List String
  devDependencies : List String
deriving DecidableEq, Repr

/-- The body of `getPnpmWorkspaceProjects` up to (and excluding) the
`catch`: workspace-schema validation (every record needs a nonempty `name`
and `path`), then per-package manifest reading/validation and normalization.
Thrown errors are modeled as `Except.error` with the thrown message. -/
def getPnpmWorkspaceProjectsE (raw : List RawWorkspacePkg)
    (readManifest : String → Option Manifest) (rel : String → String) :
    Except String (List Project) :=
  if raw.all (fun p => decide (1 ≤ p.name.length) && decide (1 ≤ p.path.length)) then
    raw.mapM (fun p =>
      match readManifest p.path with
      | none => Except.error ("Invalid package.json in " ++ p.path)
      | some m =>
        if 1 ≤ m.name.length then
          Except.ok
            { name := p.name
              namespacePre := firstSeg p.name
              path := rel p.path
              dependencies := m.dependencies
              devDependencies := m.devDependencies
              description := m.description }
        else Except.error ("Invalid package.json in " ++ p.path))
  else Except.error "Invalid workspace projects structure"

/-- The caller-visible `getPnpmWorkspaceProjects`: the `catch` block logs the
error and returns `[]`. -/
def getPnpmWorkspaceProjects (raw : List RawWorkspacePkg)
    (readManifest : String → Option Manifest) (rel : String → String) :
    List Project :=
  match getPnpmWorkspaceProjectsE raw readManifest rel with
  | .ok l => l
  | .error _ => []

/-!
## Example inputs for the concrete theorems
-/

/-- Convenience constructor for example projects (the normalizer sets
`namespacePrefix` to the part of the name before the first slash and the
description to the manifest description). -/
def mkProject (n p : String) (deps devdeps : List String) : Project :=
  { name := n, namespacePre := firstSeg n, path := p, dependencies := deps,
    devDependencies := devdeps, description := none }

/-- Two projects whose paths do not share a first segment and with no root
project. -/
def exC1 : List Project := [mkProject "a" "p" [] [], mkProject "b" "q" [] []]

/-- The spec scenario: a root-path project first, then a nested package. -/
def exC2 : List Project :=
  [mkProject "root" "" [] [], mkProject "pkg-a" "packages/a" [] []]

/-- A root-path project that is not first in the list. -/
def exC2bad : List Project := [mkProject "a" "p" [] [], mkProject "r" "" [] []]

/-- A single project at the repository root. -/
def exC3 : List Project := [mkProject "solo" "" [] []]

/-- The spec scenario for external dependency exclusion. -/
def exC5 : List Project :=
  [mkProject "@x/core" "packages/core" [] [],
   mkProject "@x/api" "services/api" ["@x/core", "left-pad"] []]

/-- Two distinct project names that sanitize to the same identifier. -/
def exC10 : List Project :=
  [mkProject "a-b" "p/x" [] [], mkProject "a_b" "p/y" [] []]

/-- A workspace record without a name (fails the shape validation). -/
def exC9 : List RawWorkspacePkg := [{ name := "", path := "pkgdir" }]

/-- A project with its dependency lists removed (used to state that
dependency names contribute nothing to the node declarations). -/
def stripDeps (p : Project) : Project :=
  { p with dependencies := [], devDependencies := [] }

/-!
## Helper lemmas
-/

lemma sanChar_idem (c : Char) : sanChar (sanChar c) = sanChar c := by
  by_cases h : c = '@' ∨ c = '/' ∨ c = '-'
  · have h1 : sanChar c = '_' := by simp [sanChar, h]
    rw [h1]
    decide
  · simp [sanChar, h]

lemma setInsert_nodup {l : List String} (x : String) (h : l.Nodup) :
    (setInsert l x).Nodup := by
  unfold setInsert
  split
  · exact h
  · next hx =>
    rw [List.nodup_append]
    exact ⟨h, List.nodup_singleton x,
      fun a ha hb => by rw [List.mem_singleton.mp hb] at ha; exact hx ha⟩

lemma foldl_setInsert_nodup (ts : List String) :
    ∀ l : List String, l.Nodup → (ts.foldl setInsert l).Nodup := by
  induction ts with
  | nil => intro l h; exact h
  | cons t ts ih => intro l h; exact ih _ (setInsert_nodup t h)

lemma lookupM_mapSet (m : List (String × List String)) (k : String)
    (v : List String) (k2 : String) :
    lookupM (mapSet m k v) k2 = if k2 = k then some v else lookupM m k2 := by
  induction m with
  | nil =>
    by_cases h : k2 = k
    · subst h; simp [mapSet, lookupM]
    · have h' : ¬k = k2 := fun hk => h hk.symm
      simp [mapSet, lookupM, h, h']
  | cons g rest ih =>
    obtain ⟨k3, v3⟩ := g
    by_cases h1 : k3 = k
    · subst h1
      by_cases h2 : k2 = k3
      · subst h2; simp [mapSet, lookupM]
      · have h2' : ¬k3 = k2 := fun hk => h2 hk.symm
        simp [mapSet, lookupM, h2, h2']
    · by_cases h2 : k3 = k2
      · subst h2
        simp [mapSet, lookupM, h1]
      · have h2' : ¬k2 = k3 := fun hk => h2 hk.symm
        simp [mapSet, lookupM, h1, h2, h2', ih]

lemma foldl_depStep_nodup (res : String → String) (l : List Project) :
    ∀ m0 : List (String × List String),
      (∀ k : String, ((lookupM m0 k).getD []).Nodup) →
      ∀ k : String, ((lookupM (l.foldl (depStep res) m0) k).getD []).Nodup := by
  induction l with
  | nil => intro m0 h0 k; exact h0 k
  | cons p ps ih =>
    intro m0 h0
    rw [List.foldl_cons]
    apply ih
    intro k
    unfold depStep
    by_cases hp : p.path = ""
    · rw [if_pos hp]; exact h0 k
    · rw [if_neg hp]
      simp only
      rw [lookupM_mapSet]
      by_cases hk : k = firstSeg p.path
      · rw [if_pos hk]
        simp only [Option.getD_some]
        exact foldl_setInsert_nodup _ _ (h0 _)
      · rw [if_neg hk]
        exact h0 k

lemma mapOf_values_nodup (projects : List Project) :
    ∀ k : String, ((lookupM (mapOf projects) k).getD []).Nodup := by
  unfold mapOf
  exact foldl_depStep_nodup _ _ _ (fun k => by simp [lookupM])

/-!
## Claims C4, C6, C7, C8, C10
-/

/-- C4: for every project list and every subgraph key, the key never appears
among the targets of its own edge statement: dependencies between two
projects sharing a first path segment produce no edge (self-loops are
filtered out by `generateDependencyGraph`). -/
theorem c4_no_self_edges (projects : List Project) (sg : String) :
    sg ∉ edgeTargets projects sg := by
  intro h
  rcases List.mem_filter.mp h with ⟨-, hp⟩
  simp at hp

/-- C6: the targets of one source subgraph's edge statement contain every
target subgraph key at most once (set semantics, no duplicate edges). -/
theorem c6_no_duplicate_edge_targets (projects : List Project) (sg t : String) :
    (edgeTargets projects sg).count t ≤ 1 := by
  have h : (edgeTargets projects sg).Nodup :=
    (mapOf_values_nodup projects sg).filter _
  exact List.nodup_iff_count_le_one.mp h t

/-- C7: `generateFolderTree` and `generateDependencyGraph` are pure
functions of their input, so evaluating each twice on the same fixed input
yields byte-identical text. -/
theorem c7_deterministic (projects : List Project) (tree : Forest) :
    generateFolderTree tree = generateFolderTree tree ∧
    generateDependencyGraph projects = generateDependencyGraph projects :=
  ⟨rfl, rfl⟩

/-- C8: `sanitizeMermaid` is idempotent, and a string containing none of the
characters `@`, `/`, `-` is returned unchanged. -/
theorem c8_sanitize_idempotent (s : String) :
    sanitizeMermaid (sanitizeMermaid s) = sanitizeMermaid s ∧
    ((∀ c ∈ s.data, ¬(c = '@' ∨ c = '/' ∨ c = '-')) → sanitizeMermaid s = s) := by
  constructor
  · apply String.ext
    show (s.data.map sanChar).map sanChar = s.data.map sanChar
    rw [List.map_map]
    exact List.map_congr_left fun a _ => sanChar_idem a
  · intro h
    apply String.ext
    show s.data.map sanChar = s.data
    conv_rhs => rw [← List.map_id s.data]
    exact List.map_congr_left fun a ha => by simp [sanChar, h a ha]

/-- Witness for C8 at the concrete sanitized identifier `"pkg"`. -/
theorem c8_sanitize_idempotent_witness :
    sanitizeMermaid (sanitizeMermaid "pkg") = sanitizeMermaid "pkg" ∧
    sanitizeMermaid "pkg" = "pkg" :=
  ⟨(c8_sanitize_idempotent "pkg").1,
   (c8_sanitize_idempotent "pkg").2 (by decide)⟩

/-- C10: the sanitized identifier mapping is not injective: the distinct
project names `"a-b"` and `"a_b"` receive the same machine identifier, and
`generateDependencyGraph` declares two nodes with identifier `a_b` and
different labels. -/
theorem c10_sanitize_not_injective :
    sanitizeMermaid "a-b" = sanitizeMermaid "a_b" ∧ "a-b" ≠ "a_b" ∧
    generateDependencyGraph exC10 =
      "```mermaid\ngraph TD\n  subgraph p\n     a_b[\"a-b\"]\n     a_b[\"a_b\"]\n  end\n```" :=
  ⟨by decide, by decide, by decide⟩

/-!
## Claim C3
-/

/-- C3 counterexample: for the single root-path project `solo`, the tree is
one line as claimed, but the rendered dependency graph contains no node
declaration at all — the output is exactly the fence and header, and the
project's name does not occur in it — contradicting the claim that the graph
contains exactly one node declaration for the root project. -/
theorem c3_counterexample :
    generateDependencyGraph exC3 = "```mermaid\ngraph TD\n```" ∧
    containsSubstr (generateDependencyGraph exC3) "solo" = false ∧
    generateFolderTree (createNodeTree exC3) = "```\nsolo\n```" :=
  ⟨rfl, by decide, rfl⟩

/-- C3 (amended): for a `Project[]` consisting of a single project with
`path === ""`, the rendered tree consists of exactly one body line containing
the project's name, and the rendered dependency graph contains no node
declaration (the root project is skipped by subgraph grouping, so the output
is only the header). -/
theorem c3_single_root_project (nm ns : String) (deps devdeps : List String)
    (desc : Option String) :
    generateFolderTree (createNodeTree
        [{ name := nm, namespacePre := ns, path := "", dependencies := deps,
           devDependencies := devdeps, description := desc }])
      = "```\n" ++ nm ++ "\n" ++ "```" ∧
    generateDependencyGraph
        [{ name := nm, namespacePre := ns, path := "", dependencies := deps,
           devDependencies := devdeps, description := desc }]
      = "```mermaid\ngraph TD\n```" := by
  constructor
  · have ht : createNodeTree
        [{ name := nm, namespacePre := ns, path := "", dependencies := deps,
           devDependencies := devdeps, description := desc }]
        = Forest.cons "" .nil (some nm) true .nil := rfl
    rw [generateFolderTree, ht]
    simp [renderForest, Forest.isEmpty, String.empty_append,
      String.append_empty, String.append_assoc]
  · rfl

/-!
## Claim C2
-/

lemma foldl_treeStep_single (l : List Project) :
    ∀ (nm : String) (i : Forest) (pn : Option String) (rt : Bool),
      ∃ i2, l.foldl treeStep (Forest.cons nm i pn rt .nil)
        = Forest.cons nm i2 pn rt .nil := by
  induction l with
  | nil => intro nm i pn rt; exact ⟨i, rfl⟩
  | cons p ps ih =>
    intro nm i pn rt
    rw [List.foldl_cons]
    exact ih nm _ pn rt

/-- C2 counterexample: in `exC2bad` the root-path project `r` comes second;
it does not become a top-level node (the only top-level node is `p`, with
`root = false`), but is nested inside `p` and rendered indented beneath it —
contradicting the claim for every list containing a root-path project. -/
theorem c2_counterexample :
    (∃ p ∈ exC2bad, p.path = "") ∧
    createNodeTree exC2bad
      = Forest.cons "p" (Forest.cons "" .nil (some "r") true .nil)
          (some "a") false .nil ∧
    generateFolderTree (createNodeTree exC2bad) = "```\n└── p\n    r\n```" :=
  ⟨⟨mkProject "r" "" [] [], by decide, rfl⟩, rfl, rfl⟩

/-- C2 (amended): when the root-path project is the FIRST element of the
list, it becomes the single top-level node, flagged `root`, with its
`projectName` set, and the first body line of the rendered tree is exactly
the project's name with no connector; in particular the spec scenario
`exC2` renders `root`, then `packages` and `a` nested with standard
connectors. -/
theorem c2_root_project_first (p : Project) (rest : List Project)
    (h : p.path = "") :
    (∃ i2, createNodeTree (p :: rest) = Forest.cons "" i2 (some p.name) true .nil) ∧
    (∃ tail, generateFolderTree (createNodeTree (p :: rest))
        = "```\n" ++ p.name ++ "\n" ++ tail) ∧
    createNodeTree exC2
      = Forest.cons "" (Forest.cons "packages"
          (Forest.cons "a" .nil (some "pkg-a") false .nil) none false .nil)
          (some "root") true .nil ∧
    generateFolderTree (createNodeTree exC2)
      = "```\nroot\n└── packages\n    └── a\n```" := by
  have hstep : treeStep .nil p = Forest.cons "" .nil (some p.name) true .nil := by
    show insertSegs (p.path = "") p.name (splitPath p.path) .nil = _
    rw [h]
    rfl
  obtain ⟨i2, hfold⟩ := foldl_treeStep_single rest "" .nil (some p.name) true
  have htree : createNodeTree (p :: rest) = Forest.cons "" i2 (some p.name) true .nil := by
    unfold createNodeTree
    rw [List.foldl_cons, hstep, hfold]
  refine ⟨⟨i2, htree⟩, ?_, rfl, rfl⟩
  rw [generateFolderTree, htree]
  refine ⟨(if i2.isEmpty then "" else renderForest i2 "") ++ "```", ?_⟩
  simp [renderForest, Forest.isEmpty, String.empty_append,
    String.append_empty, String.append_assoc]

/-- Witness for C2 at the spec scenario input. -/
theorem c2_root_project_first_witness :
    (∃ i2, createNodeTree exC2 = Forest.cons "" i2 (some "root") true .nil) ∧
    (∃ tail, generateFolderTree (createNodeTree exC2)
        = "```\n" ++ "root" ++ "\n" ++ tail) ∧
    createNodeTree exC2
      = Forest.cons "" (Forest.cons "packages"
          (Forest.cons "a" .nil (some "pkg-a") false .nil) none false .nil)
          (some "root") true .nil ∧
    generateFolderTree (createNodeTree exC2)
      = "```\nroot\n└── packages\n    └── a\n```" :=
  c2_root_project_first (mkProject "root" "" [] [])
    [mkProject "pkg-a" "packages/a" [] []] rfl

/-!
## Claim C9
-/

/-- C9 counterexample: for the record list `exC9` whose only record has an
empty name, the caller-visible `getPnpmWorkspaceProjects` does not propagate
any error: it returns the ordinary value `[]`, indistinguishable from an
empty workspace — contradicting the claim that a `MalformedInputError` is
propagated to the caller. -/
theorem c9_counterexample :
    getPnpmWorkspaceProjects exC9 (fun _ => none) (fun s => s) = [] ∧
    getPnpmWorkspaceProjects [] (fun _ => none) (fun s => s) = [] :=
  ⟨rfl, rfl⟩

/-- C9 (amended): if any record lacks a non-empty name, shape validation
raises an internal error (`Invalid workspace projects structure`) which the
surrounding catch swallows; the caller receives the empty project list, so
no partial tree or graph is produced (the caller sees zero projects, not an
error). -/
theorem c9_malformed_input (raw : List RawWorkspacePkg)
    (readManifest : String → Option Manifest) (rel : String → String)
    (h : ∃ p ∈ raw, p.name = "") :
    getPnpmWorkspaceProjectsE raw readManifest rel
      = Except.error "Invalid workspace projects structure" ∧
    getPnpmWorkspaceProjects raw readManifest rel = [] := by
  have hall : ¬(raw.all
      (fun p => decide (1 ≤ p.name.length) && decide (1 ≤ p.path.length)) = true) := by
    intro hforall
    rcases h with ⟨p, hp, hname⟩
    have h2 := List.all_eq_true.mp hforall p hp
    rw [hname] at h2
    simp at h2
  constructor
  · unfold getPnpmWorkspaceProjectsE
    rw [if_neg hall]
  · unfold getPnpmWorkspaceProjects getPnpmWorkspaceProjectsE
    rw [if_neg hall]

/-- Witness for C9 at the concrete malformed record list. -/
theorem c9_malformed_input_witness :
    getPnpmWorkspaceProjectsE exC9 (fun _ => none) (fun s => s)
      = Except.error "Invalid workspace projects structure" ∧
    getPnpmWorkspaceProjects exC9 (fun _ => none) (fun s => s) = [] :=
  c9_malformed_input exC9 (fun _ => none) (fun s => s)
    ⟨{ name := "", path := "pkgdir" }, by decide, rfl⟩

/-!
## Claim C5
-/

lemma stripDeps_path (p : Project) : (stripDeps p).path = p.path := rfl

lemma stripDeps_name (p : Project) : (stripDeps p).name = p.name := rfl

lemma insertGroup_strip (k : String) (p : Project)
    (gs : List (String × List Project)) :
    insertGroup k (stripDeps p) (gs.map (fun g => (g.1, g.2.map stripDeps)))
      = (insertGroup k p gs).map (fun g => (g.1, g.2.map stripDeps)) := by
  induction gs with
  | nil => simp [insertGroup]
  | cons g rest ih =>
    obtain ⟨k2, ps⟩ := g
    by_cases h : k2 = k
    · subst h; simp [insertGroup]
    · simp [insertGroup, h, ih]

lemma groupStep_strip (gs : List (String × List Project)) (p : Project) :
    groupStep (gs.map (fun g => (g.1, g.2.map stripDeps))) (stripDeps p)
      = (groupStep gs p).map (fun g => (g.1, g.2.map stripDeps)) := by
  unfold groupStep
  rw [stripDeps_path]
  by_cases h : firstSeg p.path = ""
  · rw [if_pos h, if_pos h]
  · rw [if_neg h, if_neg h, insertGroup_strip]

lemma foldl_groupStep_strip (l : List Project) :
    ∀ acc : List (String × List Project),
      (l.map stripDeps).foldl groupStep
          (acc.map (fun g => (g.1, g.2.map stripDeps)))
        = (l.foldl groupStep acc).map (fun g => (g.1, g.2.map stripDeps)) := by
  induction l with
  | nil => intro acc; rfl
  | cons p ps ih =>
    intro acc
    simp only [List.map_cons, List.foldl_cons]
    rw [groupStep_strip]
    exact ih _

lemma subgraphsOf_strip (l : List Project) :
    subgraphsOf (l.map stripDeps)
      = (subgraphsOf l).map (fun g => (g.1, g.2.map stripDeps)) := by
  unfold subgraphsOf
  simpa using foldl_groupStep_strip l []

lemma filter_map_keyfun (q : String → Bool) (gs : List (String × List Project)) :
    (gs.map (fun g => (g.1, g.2.map stripDeps))).filter (fun g => q g.1)
      = (gs.filter (fun g => q g.1)).map (fun g => (g.1, g.2.map stripDeps)) := by
  induction gs with
  | nil => rfl
  | cons g rest ih =>
    simp only [List.map_cons, List.filter_cons]
    by_cases h : q g.1 = true
    · simp [h, ih]
    · simp [h, ih]

lemma insertSorted_map (g : String × List Project)
    (l : List (String × List Project)) :
    insertSorted ((fun g => (g.1, g.2.map stripDeps)) g)
        (l.map (fun g => (g.1, g.2.map stripDeps)))
      = (insertSorted g l).map (fun g => (g.1, g.2.map stripDeps)) := by
  induction l with
  | nil => rfl
  | cons h t ih =>
    unfold insertSorted
    by_cases hc : digitsVal g.1.data < digitsVal h.1.data
    · simp [hc]
    · simp [hc, ih]

lemma sortNumeric_map (l : List (String × List Project)) :
    sortNumeric (l.map (fun g => (g.1, g.2.map stripDeps)))
      = (sortNumeric l).map (fun g => (g.1, g.2.map stripDeps)) := by
  unfold sortNumeric
  induction l with
  | nil => rfl
  | cons g t ih =>
    simp only [List.map_cons, List.foldr_cons]
    rw [ih, insertSorted_map]

lemma entriesOf_map (gs : List (String × List Project)) :
    entriesOf (gs.map (fun g => (g.1, g.2.map stripDeps)))
      = (entriesOf gs).map (fun g => (g.1, g.2.map stripDeps)) := by
  unfold entriesOf
  rw [filter_map_keyfun isCanonicalIndex,
    filter_map_keyfun (fun k => !isCanonicalIndex k), sortNumeric_map,
    List.map_append]

lemma foldl_nodeLine_strip (ps : List Project) :
    ∀ a : String, (ps.map stripDeps).foldl nodeLine a = ps.foldl nodeLine a := by
  induction ps with
  | nil => intro a; rfl
  | cons p t ih =>
    intro a
    simp only [List.map_cons, List.foldl_cons]
    rw [show nodeLine a (stripDeps p) = nodeLine a p from rfl]
    exact ih _

lemma foldl_block_strip (es : List (String × List Project)) :
    ∀ acc : String,
      (es.map (fun g => (g.1, g.2.map stripDeps))).foldl subgraphBlock acc
        = es.foldl subgraphBlock acc := by
  induction es with
  | nil => intro acc; rfl
  | cons g t ih =>
    intro acc
    simp only [List.map_cons, List.foldl_cons]
    have hb : subgraphBlock acc ((fun g => (g.1, g.2.map stripDeps)) g)
        = subgraphBlock acc g := by
      unfold subgraphBlock
      rw [show ((fun g => (g.1, g.2.map stripDeps)) g).1 = g.1 from rfl,
        show ((fun g => (g.1, g.2.map stripDeps)) g).2 = g.2.map stripDeps from rfl,
        foldl_nodeLine_strip]
    rw [hb]
    exact ih _

/-- C5: an unresolved dependency name (one matching no project name)
resolves to the empty subgraph key; the empty key never occurs among any
subgraph's edge targets; node declarations do not depend on the dependency
lists at all; and on the spec scenario `exC5` the graph has exactly the two
subgraphs `packages` and `services`, the single edge `services --> packages`,
and no occurrence of `left-pad`. -/
theorem c5_external_deps_dropped :
    (∀ (projects : List Project) (d : String),
      (∀ q ∈ projects, q.name ≠ d) → resolveDepSubgraph projects d = "") ∧
    (∀ (projects : List Project) (sg : String), "" ∉ edgeTargets projects sg) ∧
    (∀ projects : List Project,
      nodeLines (projects.map stripDeps) = nodeLines projects) ∧
    generateDependencyGraph exC5 =
      "```mermaid\ngraph TD\n  subgraph packages\n     _x_core[\"@x/core\"]\n  end\n  subgraph services\n     _x_api[\"@x/api\"]\n  end\n  services --> packages\n```" ∧
    containsSubstr (generateDependencyGraph exC5) "left-pad" = false := by
  refine ⟨?_, ?_, ?_, rfl, by decide⟩
  · intro projects d h
    have hf : projects.find? (fun p => p.name = d) = none := by
      rw [List.find?_eq_none]
      intro x hx
      simp [h x hx]
    unfold resolveDepSubgraph
    rw [hf]
  · intro projects sg hmem
    rcases List.mem_filter.mp hmem with ⟨-, hp⟩
    simp at hp
  · intro projects
    unfold nodeLines
    rw [subgraphsOf_strip, entriesOf_map, foldl_block_strip]

/-- Witness for C5 at the spec scenario input. -/
theorem c5_external_deps_dropped_witness :
    resolveDepSubgraph exC5 "left-pad" = "" ∧ "" ∉ edgeTargets exC5 "services" :=
  ⟨c5_external_deps_dropped.1 exC5 "left-pad" (by decide),
   c5_external_deps_dropped.2.1 exC5 "services"⟩

/-!
## Claim C1
-/

lemma splitChars_ne_nil (l : List Char) : splitChars l ≠ [] := by
  induction l with
  | nil => simp [splitChars]
  | cons c cs ih =>
    unfold splitChars
    by_cases h : c = '/'
    · simp [h]
    · rw [if_neg h]
      split
      · simp
      · simp

lemma splitPath_ne_nil (s : String) : splitPath s ≠ [] := by
  unfold splitPath
  intro h
  exact splitChars_ne_nil s.data (List.map_eq_nil_iff.mp h)

lemma walk_freshChain (isR : Bool) (pn : String) :
    ∀ (srest : List String) (s : String),
      walkPN (singleNode (freshChain isR pn s srest)) (s :: srest) = some pn := by
  intro srest
  induction srest with
  | nil =>
    intro s
    simp [walkPN, walk, findNode, freshChain, singleNode]
  | cons t r ih =>
    intro s
    have hstep : walkPN (singleNode (freshChain isR pn s (t :: r))) (s :: t :: r)
        = walkPN (singleNode (freshChain isR pn t r)) (t :: r) := by
      simp [walkPN, walk, findNode, singleNode, freshChain]
    rw [hstep]
    exact ih t

lemma findNode_pushNode (s : String) (ns : Forest) (m n : NodeV)
    (h : findNode s ns = some n) : findNode s (pushNode ns m) = some n := by
  induction ns with
  | nil => simp [findNode] at h
  | cons nm i pn rt rest ih1 ih2 =>
    unfold findNode at h
    unfold pushNode findNode
    by_cases hn : nm = s
    · rw [if_pos hn] at h ⊢; exact h
    · rw [if_neg hn] at h ⊢; exact ih2 h

lemma findNode_modifyFirst_ne (s q : String) (hne : s ≠ q)
    (f : Forest → Forest) (ns : Forest) :
    findNode s (modifyFirst q f ns) = findNode s ns := by
  induction ns with
  | nil => rfl
  | cons nm i pn rt rest ih1 ih2 =>
    unfold modifyFirst
    by_cases hq : nm = q
    · rw [if_pos hq]
      unfold findNode
      have hns : ¬nm = s := by rw [hq]; exact fun hh => hne hh.symm
      rw [if_neg hns, if_neg hns]
    · rw [if_neg hq]
      unfold findNode
      by_cases hs : nm = s
      · rw [if_pos hs, if_pos hs]
      · rw [if_neg hs, if_neg hs]
        exact ih2

lemma findNode_modifyFirst_eq (q : String) (f : Forest → Forest) (ns : Forest)
    (n : NodeV) (h : findNode q ns = some n) :
    findNode q (modifyFirst q f ns)
      = some ⟨n.name, f n.inner, n.projectName, n.root⟩ := by
  induction ns with
  | nil => simp [findNode] at h
  | cons nm i pn rt rest ih1 ih2 =>
    unfold findNode at h
    unfold modifyFirst
    by_cases hq : nm = q
    · rw [if_pos hq] at h
      rw [if_pos hq]
      injection h with h
      subst h
      unfold findNode
      rw [if_pos hq]
    · rw [if_neg hq] at h
      rw [if_neg hq]
      unfold findNode
      rw [if_neg hq]
      exact ih2 h

lemma walkPN_single_inv (ns : Forest) (s x : String)
    (h : walkPN ns [s] = some x) :
    ∃ n, findNode s ns = some n ∧ n.projectName = some x := by
  unfold walkPN walk at h
  cases hf : findNode s ns with
  | none => rw [hf] at h; simp at h
  | some n => rw [hf] at h; exact ⟨n, rfl, by simpa using h⟩

lemma walkPN_cons_inv (ns : Forest) (s t : String) (r0 : List String)
    (x : String) (h : walkPN ns (s :: t :: r0) = some x) :
    ∃ n, findNode s ns = some n ∧ walkPN n.inner (t :: r0) = some x := by
  unfold walkPN walk at h
  cases hf : findNode s ns with
  | none => rw [hf] at h; simp at h
  | some n => rw [hf] at h; exact ⟨n, rfl, h⟩

lemma walkPN_insertSegs (segs0 : List String) :
    ∀ (ns : Forest) (x : String), walkPN ns segs0 = some x →
      ∀ (segsq : List String) (isR : Bool) (pn : String),
        walkPN (insertSegs isR pn segsq ns) segs0 = some x := by
  induction segs0 with
  | nil => intro ns x h; simp [walkPN, walk] at h
  | cons s rest0 ih =>
    intro ns x h segsq isR pn
    cases segsq with
    | nil => exact h
    | cons q qrest =>
      unfold insertSegs
      by_cases hc : containsName q ns = true
      · rw [if_pos hc]
        by_cases hq : qrest.isEmpty = true
        · rw [if_pos hq]; exact h
        · rw [if_neg hq]
          cases rest0 with
          | nil =>
            obtain ⟨n, hfn, hpn⟩ := walkPN_single_inv ns s x h
            by_cases hsq : s = q
            · subst hsq
              have hm := findNode_modifyFirst_eq s (insertSegs isR pn qrest) ns n hfn
              unfold walkPN walk
              rw [hm]
              simpa using hpn
            · unfold walkPN walk
              rw [findNode_modifyFirst_ne s q hsq, hfn]
              simpa using hpn
          | cons t r0 =>
            obtain ⟨n, hfn, hrest⟩ := walkPN_cons_inv ns s t r0 x h
            by_cases hsq : s = q
            · subst hsq
              have hm := findNode_modifyFirst_eq s (insertSegs isR pn qrest) ns n hfn
              unfold walkPN walk
              rw [hm]
              simpa [walkPN] using ih n.inner x hrest qrest isR pn
            · unfold walkPN walk
              rw [findNode_modifyFirst_ne s q hsq, hfn]
              exact hrest
      · rw [if_neg hc]
        cases rest0 with
        | nil =>
          obtain ⟨n, hfn, hpn⟩ := walkPN_single_inv ns s x h
          unfold walkPN walk
          rw [findNode_pushNode s ns _ n hfn]
          simpa using hpn
        | cons t r0 =>
          obtain ⟨n, hfn, hrest⟩ := walkPN_cons_inv ns s t r0 x h
          unfold walkPN walk
          rw [findNode_pushNode s ns _ n hfn]
          exact hrest

lemma walkPN_nil_none (segs : List String) : walkPN Forest.nil segs = none := by
  cases segs with
  | nil => rfl
  | cons s rest =>
    cases rest with
    | nil => rfl
    | cons t r => rfl

lemma walkPN_treeStep (tree : Forest) (p : Project) (segs : List String)
    (x : String) (h : walkPN tree segs = some x) :
    walkPN (treeStep tree p) segs = some x := by
  cases tree with
  | nil =>
    rw [walkPN_nil_none] at h
    exact absurd h (by simp)
  | cons nm i pn rt rest =>
    show walkPN (Forest.cons nm
      (insertSegs (p.path = "") p.name (splitPath p.path) i) pn rt rest) segs = some x
    cases segs with
    | nil => simp [walkPN, walk] at h
    | cons s rest0 =>
      cases rest0 with
      | nil =>
        obtain ⟨n, hfn, hpn⟩ := walkPN_single_inv _ s x h
        unfold findNode at hfn
        unfold walkPN walk findNode
        by_cases hs : nm = s
        · rw [if_pos hs] at hfn
          rw [if_pos hs]
          injection hfn with hfn
          have : pn = some x := by rw [← hfn] at hpn; simpa using hpn
          simpa using this
        · rw [if_neg hs] at hfn
          rw [if_neg hs, hfn]
          simpa using hpn
      | cons t r0 =>
        obtain ⟨n, hfn, hrest⟩ := walkPN_cons_inv _ s t r0 x h
        unfold findNode at hfn
        unfold walkPN walk findNode
        by_cases hs : nm = s
        · rw [if_pos hs] at hfn
          rw [if_pos hs]
          injection hfn with hfn
          have hi : walkPN i (t :: r0) = some x := by
            rw [← hfn] at hrest; simpa using hrest
          simpa [walkPN] using
            walkPN_insertSegs (t :: r0) i x hi (splitPath p.path)
              (p.path = "") p.name
        · rw [if_neg hs] at hfn
          rw [if_neg hs, hfn]
          exact hrest

lemma walkPN_foldl_treeStep (l : List Project) :
    ∀ (tree : Forest) (segs : List String) (x : String),
      walkPN tree segs = some x → walkPN (l.foldl treeStep tree) segs = some x := by
  induction l with
  | nil => intro tree segs x h; exact h
  | cons p ps ih =>
    intro tree segs x h
    rw [List.foldl_cons]
    exact ih _ segs x (walkPN_treeStep tree p segs x h)

/-- C1 counterexample: in `exC1` the second project `b` (path `q`) is
unreachable: its path segments get nested inside the first top-level node
`p`, so the traversal of the returned forest by the segments of `q` reaches
no node at all — contradicting the claim for every project regardless of its
position. -/
theorem c1_counterexample :
    mkProject "b" "q" [] [] ∈ exC1 ∧
    walk (splitPath "q") (createNodeTree exC1) = none :=
  ⟨by decide, rfl⟩

/-- C1 (amended): the reachability invariant holds for the FIRST project of
the list: traversing the forest returned by `createNodeTree` with the first
project's path segments in order reaches a node whose `projectName` is that
project's name. -/
theorem c1_first_project_reachable (p : Project) (rest : List Project) :
    walkPN (createNodeTree (p :: rest)) (splitPath p.path) = some p.name := by
  obtain ⟨s, srest, hs⟩ : ∃ s srest, splitPath p.path = s :: srest := by
    cases hsp : splitPath p.path with
    | nil => exact absurd hsp (splitPath_ne_nil _)
    | cons a b => exact ⟨a, b, rfl⟩
  have h0 : walkPN (treeStep .nil p) (splitPath p.path) = some p.name := by
    show walkPN (insertSegs (p.path = "") p.name (splitPath p.path) .nil)
      (splitPath p.path) = some p.name
    rw [hs]
    show walkPN (singleNode (freshChain (p.path = "") p.name s srest))
      (s :: srest) = some p.name
    exact walk_freshChain (p.path = "") p.name srest s
  unfold createNodeTree
  rw [List.foldl_cons]
  exact walkPN_foldl_treeStep rest (treeStep .nil p) (splitPath p.path) p.name h0
